import Mathlib

/-!
Shallow embedding of the core of the `rust-random-logo` repository: the
sigma-factor IFS sampler (`src/core/ifs.rs`), the point generation /
normalization / rasterization pipeline (`src/core/renderer.rs`), draw
utilities (`src/core/utils.rs`), affine maps (`src/core/affine.rs`),
configuration (`src/core/config.rs`) and errors (`src/error.rs`).

Modelling conventions:
* `f64` values are modelled as exact rationals; rounding error is not
  modelled.  Where IEEE special values are load-bearing (the unguarded
  division in `normalize_points` and the saturating `as u32` cast in
  `render`) the pipeline uses the type `Fl`: rationals extended with a
  not-a-number value and signed infinities, with IEEE-style propagation
  (zeroes are unsigned).
* the pseudo-random generator (`Xoshiro256PlusPlus` together with the
  `rand` distributions) is modelled as an abstract deterministic stream
  with a position counter: `floats` models `gen::<f64>()` (values lie in
  `[0,1)` for a well-formed stream, `Rng.Wf`), `bools` models
  `gen::<bool>()`, and `ints` (reduced mod the range size) models
  `gen_range`.  Every draw procedure threads the state explicitly, so
  the sequential consumption order of the source is preserved.
* `cos`, `sin` and `PI` (used via `Rotation2::new` and
  `std::f64::consts::PI`) are modelled by an abstract environment
  `Trig`; theorems that need it assume `Trig.Pos`, the fact (true of
  the IEEE functions) that `cos a ^ 2 + sin a ^ 2` is positive.
* panics (the `unwrap` on `WeightedIndex::new` in `apply_random`, the
  length assertion in `SigmaFactorIFS::new`) are modelled with
  `Option`: a `none` result is a panic.
-/

/-- Deterministic model of the pseudo-random stream: three typed draw
streams indexed by a shared position counter that advances once per
consumed draw. -/
structure Rng where
  floats : ℕ → ℚ
  bools : ℕ → Bool
  ints : ℕ → ℕ
  pos : ℕ

namespace Rng

/-- Advance the stream past one consumed draw. -/
def next (r : Rng) : Rng := { r with pos := r.pos + 1 }

/-- Model of `rng.gen::<f64>()`: one unit-interval draw. -/
def genFloat (r : Rng) : ℚ × Rng := (r.floats r.pos, r.next)

/-- Model of `rng.gen::<bool>()`. -/
def genBool (r : Rng) : Bool × Rng := (r.bools r.pos, r.next)

/-- Model of `rng.gen_range(lo..=hi)` (inclusive integer range). -/
def genRangeIncl (r : Rng) (lo hi : ℕ) : ℕ × Rng :=
  (lo + r.ints r.pos % (hi - lo + 1), r.next)

/-- Model of `rng.gen_range(lo..hi)` (exclusive integer range). -/
def genRangeLt (r : Rng) (lo hi : ℕ) : ℕ × Rng :=
  (lo + r.ints r.pos % (hi - lo), r.next)

/-- Well-formed stream: every `f64` draw lies in `[0, 1)`, the contract
of `rand`'s `Standard` distribution on `f64`. -/
def Wf (r : Rng) : Prop := ∀ i, 0 ≤ r.floats i ∧ r.floats i < 1

theorem Wf.next {r : Rng} (h : r.Wf) : r.next.Wf := h

end Rng

/-- Embedding of `utils::uniform`: `a + (b - a) * rng.gen::<f64>()`. -/
def uniform (rng : Rng) (a b : ℚ) : ℚ × Rng :=
  (a + (b - a) * rng.floats rng.pos, rng.next)

/-- Embedding of `nalgebra::Vector2<f64>` (`Vector2f`). -/
structure Vec2 where
  x : ℚ
  y : ℚ
deriving DecidableEq

/-- Componentwise vector addition. -/
def Vec2.add (v w : Vec2) : Vec2 := ⟨v.x + w.x, v.y + w.y⟩

/-- Embedding of `nalgebra::Matrix2<f64>` (`Matrix2f`), row major:
`Matrix2::new(m00, m01, m10, m11)`. -/
structure Mat2 where
  m00 : ℚ
  m01 : ℚ
  m10 : ℚ
  m11 : ℚ
deriving DecidableEq

namespace Mat2

/-- Matrix product. -/
def mul (m n : Mat2) : Mat2 :=
  ⟨m.m00 * n.m00 + m.m01 * n.m10, m.m00 * n.m01 + m.m01 * n.m11,
   m.m10 * n.m00 + m.m11 * n.m10, m.m10 * n.m01 + m.m11 * n.m11⟩

/-- Matrix-vector product. -/
def mulVec (m : Mat2) (v : Vec2) : Vec2 :=
  ⟨m.m00 * v.x + m.m01 * v.y, m.m10 * v.x + m.m11 * v.y⟩

/-- Determinant of a 2 by 2 matrix. -/
def det (m : Mat2) : ℚ := m.m00 * m.m11 - m.m01 * m.m10

theorem det_mul (m n : Mat2) : (m.mul n).det = m.det * n.det := by
  simp only [det, mul]; ring

end Mat2

/-- Embedding of `Affine` from `src/core/affine.rs`: `f(x) = W x + b`. -/
structure Affine where
  w : Mat2
  b : Vec2
deriving DecidableEq

instance : Inhabited Affine := ⟨⟨⟨0, 0, 0, 0⟩, ⟨0, 0⟩⟩⟩

/-- Embedding of `Affine::apply`: `self.w * point + self.b`. -/
def Affine.apply (t : Affine) (p : Vec2) : Vec2 := (t.w.mulVec p).add t.b

/-- Embedding of `Affine::determinant`: `self.w.determinant()`. -/
def Affine.determinant (t : Affine) : ℚ := t.w.det

/-- Abstract model of the `f64` trigonometric environment used through
`Rotation2::new` and `std::f64::consts::PI`. -/
structure Trig where
  pi : ℚ
  cos : ℚ → ℚ
  sin : ℚ → ℚ

/-- Property of the modelled trig functions used in proofs: the
determinant `cos a ^ 2 + sin a ^ 2` of a rotation matrix is positive
(true of the IEEE `cos`/`sin`, whose results are never both zero). -/
def Trig.Pos (T : Trig) : Prop := ∀ a, 0 < T.cos a ^ 2 + T.sin a ^ 2

/-- Embedding of `SigmaFactorIFS`: the affine transforms and their
selection weights. -/
structure SigmaFactorIFS where
  transforms : List Affine
  weights : List ℚ
deriving DecidableEq

/-- Embedding of `SigmaFactorIFS::new`; the `assert_eq!` on the lengths
is modelled by `none`. -/
def SigmaFactorIFS.new (ts : List Affine) (ws : List ℚ) : Option SigmaFactorIFS :=
  if ts.length = ws.length then some ⟨ts, ws⟩ else none

/-- Success condition of `rand::distributions::WeightedIndex::new`:
a nonempty weight list, no negative weight, and nonzero total. -/
def wiValid (ws : List ℚ) : Prop :=
  ws ≠ [] ∧ (∀ w ∈ ws, 0 ≤ w) ∧ ws.sum ≠ 0

instance (ws : List ℚ) : Decidable (wiValid ws) := by
  unfold wiValid; infer_instance

/-- Index selection of `WeightedIndex::sample`: the first index whose
running cumulative weight exceeds the drawn value `x`. -/
def wiPick : List ℚ → ℚ → ℕ
  | [], _ => 0
  | w :: ws, x => if x < w then 0 else wiPick ws (x - w) + 1

/-- Embedding of `SigmaFactorIFS::apply_random` (`impl IFS`): build the
weighted index (a construction failure makes the `unwrap` a panic,
modelled by `none`), sample an index with one stream draw, and apply
the selected transform. -/
def SigmaFactorIFS.apply_random (ifs : SigmaFactorIFS) (rng : Rng) (p : Vec2) :
    Option (Vec2 × Rng) :=
  if wiValid ifs.weights then
    let idx := wiPick ifs.weights (ifs.weights.sum * rng.floats rng.pos)
    some ((ifs.transforms.getD idx default).apply p, rng.next)
  else none

/-- State of the `sample_svs` loop: the pairs emitted so far in draw
order, the running bounds, and the stream. -/
structure SvsState where
  pairs : List (ℚ × ℚ)
  bl : ℚ
  bu : ℚ
  rng : Rng

/-- Loop body of `sample_svs` iterated `m` times (the source runs it
`n - 1` times). -/
def svsLoop : ℕ → Rng → ℚ → ℚ → SvsState
  | 0, rng, bl, bu => ⟨[], bl, bu, rng⟩
  | m + 1, rng, bl, bu =>
    let u1 := uniform rng (max 0 (bl / 3)) (min 1 bu)
    let sigma1 := u1.1
    let bl1 := bl - sigma1
    let bu1 := bu - sigma1
    let u2 := uniform u1.2 (max 0 ((1/2) * bl1)) (min sigma1 ((1/2) * bu1))
    let sigma2 := u2.1
    let bl2 := bl1 - 2 * sigma2 + 3
    let bu2 := bu1 - 2 * sigma2
    let s := svsLoop m u2.2 bl2 bu2
    ⟨(sigma1, sigma2) :: s.pairs, s.bl, s.bu, s.rng⟩

/-- Embedding of `sample_svs` from `src/core/ifs.rs`: sequential
range-tightening sampling of the `n` singular-value pairs; the final
pair derives `sigma1 = b_upper - 2 * sigma2` with no further draw.
The source's `usize` subtraction `n - 1` is natural subtraction here;
every caller passes `n` between 2 and 4. -/
def sample_svs (rng : Rng) (alpha : ℚ) (n : ℕ) : List (ℚ × ℚ) × Rng :=
  let s := svsLoop (n - 1) rng (alpha - 3 * (n : ℚ) + 3) alpha
  let u := uniform s.rng (max 0 ((1/2) * (s.bu - 1))) (s.bu / 3)
  let sigma2 := u.1
  let sigma1 := s.bu - 2 * sigma2
  (s.pairs ++ [(sigma1, sigma2)], u.2)

/-- Model transcribed from the claim text for `sample_svs` (C2): bounds
initialised to `alpha - 3n + 3` and `alpha`; for each of the first
`n - 1` pairs draw `sigma1` uniformly from
`[max(0, b_lower/3), min(1, b_upper)]`, subtract `sigma1` from both
bounds, draw `sigma2` uniformly from
`[max(0, b_lower/2), min(sigma1, b_upper/2)]`, then update
`b_lower += 3 - 2*sigma2` and `b_upper -= 2*sigma2`; pairs are
accumulated in draw order. -/
def svsClaimLoop : ℕ → Rng → ℚ → ℚ → List (ℚ × ℚ) → List (ℚ × ℚ) × ℚ × ℚ × Rng
  | 0, rng, bl, bu, acc => (acc, bl, bu, rng)
  | m + 1, rng, bl, bu, acc =>
    let u1 := uniform rng (max 0 (bl / 3)) (min 1 bu)
    let sigma1 := u1.1
    let blA := bl - sigma1
    let buA := bu - sigma1
    let u2 := uniform u1.2 (max 0 (blA / 2)) (min sigma1 (buA / 2))
    let sigma2 := u2.1
    svsClaimLoop m u2.2 (blA + (3 - 2 * sigma2)) (buA - 2 * sigma2) (acc ++ [(sigma1, sigma2)])

/-- Model transcribed from the claim text for `sample_svs` (C2), final
step: for the last pair draw `sigma2` uniformly from
`[max(0, (b_upper - 1)/2), b_upper/3]` and set
`sigma1 = b_upper - 2*sigma2` with no further random draw; exactly `n`
pairs are returned in draw order. -/
def sampleSvsClaim (rng : Rng) (alpha : ℚ) (n : ℕ) : List (ℚ × ℚ) × Rng :=
  let s := svsClaimLoop (n - 1) rng (alpha - 3 * (n : ℚ) + 3) alpha []
  let bu := s.2.2.1
  let u := uniform s.2.2.2 (max 0 ((bu - 1) / 2)) (bu / 3)
  (s.1 ++ [(bu - 2 * u.1, u.1)], u.2)

/-- Embedding of `random_rotation`: draw an angle uniformly from
`[0, 2*PI)` and build `Rotation2::new(angle)`. -/
def random_rotation (T : Trig) (rng : Rng) : Mat2 × Rng :=
  let u := uniform rng 0 (2 * T.pi)
  (⟨T.cos u.1, -(T.sin u.1), T.sin u.1, T.cos u.1⟩, u.2)

/-- Embedding of `random_sign_diagonal`: two fair coin draws giving a
diagonal matrix with entries in `{-1, 1}`. -/
def random_sign_diagonal (rng : Rng) : Mat2 × Rng :=
  let g1 := rng.genBool
  let g2 := g1.2.genBool
  (⟨if g1.1 then 1 else -1, 0, 0, if g2.1 then 1 else -1⟩, g2.2)

/-- Transform-construction loop of `rand_sigma_factor_ifs` over the
sampled singular values: per pair, two random rotations, the diagonal
of singular values, a random sign diagonal, `W` as their product in
source order, and a translation with both components uniform on
`[-1, 1]`. -/
def buildTransforms (T : Trig) : List (ℚ × ℚ) → Rng → List Affine × Rng
  | [], rng => ([], rng)
  | sv :: rest, rng =>
    let rr1 := random_rotation T rng
    let r_theta := rr1.1
    let rr2 := random_rotation T rr1.2
    let r_phi := rr2.1
    let sigma_mat : Mat2 := ⟨sv.1, 0, 0, sv.2⟩
    let rd := random_sign_diagonal rr2.2
    let d := rd.1
    let w := ((r_theta.mul sigma_mat).mul r_phi).mul d
    let ub1 := uniform rd.2 (-1) 1
    let ub2 := uniform ub1.2 (-1) 1
    let s := buildTransforms T rest ub2.2
    (⟨w, ⟨ub1.1, ub2.1⟩⟩ :: s.1, s.2)

/-- Embedding of `rand_sigma_factor_ifs`: draw `n` from `{2,3,4}`, the
sigma factor from `[0.5*(5+n), 0.5*(6+n)]`, sample the singular values,
build the transforms, weight each by the absolute determinant and
normalize by the sum. -/
def rand_sigma_factor_ifs (T : Trig) (rng : Rng) : Option (SigmaFactorIFS × Rng) :=
  let gn := rng.genRangeIncl 2 4
  let n := gn.1
  let alpha_lower := (1/2 : ℚ) * (5 + (n : ℚ))
  let alpha_upper := (1/2 : ℚ) * (6 + (n : ℚ))
  let ua := uniform gn.2 alpha_lower alpha_upper
  let sv := sample_svs ua.2 ua.1 n
  let bt := buildTransforms T sv.1 sv.2
  let transforms := bt.1
  let pre_weights := transforms.map fun t => |t.determinant|
  let wsum := pre_weights.sum
  let weights := pre_weights.map fun w => w / wsum
  (SigmaFactorIFS.new transforms weights).map fun ifs => (ifs, bt.2)

/-- Rationals extended with the IEEE special values `NaN` and the two
infinities; the payload arithmetic is exact (rounding is not
modelled and zero is unsigned). -/
inductive Fl where
  | fin (q : ℚ)
  | nan
  | inf
  | ninf
deriving DecidableEq

namespace Fl

/-- IEEE negation. -/
def neg : Fl → Fl
  | .fin q => .fin (-q)
  | .nan => .nan
  | .inf => .ninf
  | .ninf => .inf

/-- IEEE addition (`inf + ninf = nan`). -/
def add : Fl → Fl → Fl
  | .nan, _ => .nan
  | _, .nan => .nan
  | .inf, .ninf => .nan
  | .ninf, .inf => .nan
  | .inf, _ => .inf
  | _, .inf => .inf
  | .ninf, _ => .ninf
  | _, .ninf => .ninf
  | .fin a, .fin b => .fin (a + b)

/-- IEEE subtraction. -/
def sub (a b : Fl) : Fl := a.add b.neg

/-- IEEE multiplication (`0 * inf = nan`). -/
def mul : Fl → Fl → Fl
  | .nan, _ => .nan
  | _, .nan => .nan
  | .inf, .inf => .inf
  | .inf, .ninf => .ninf
  | .ninf, .inf => .ninf
  | .ninf, .ninf => .inf
  | .inf, .fin b => if b = 0 then .nan else if 0 < b then .inf else .ninf
  | .fin a, .inf => if a = 0 then .nan else if 0 < a then .inf else .ninf
  | .ninf, .fin b => if b = 0 then .nan else if 0 < b then .ninf else .inf
  | .fin a, .ninf => if a = 0 then .nan else if 0 < a then .ninf else .inf
  | .fin a, .fin b => .fin (a * b)

/-- IEEE division (`0 / 0 = nan`, division by the unsigned zero of the
model follows the sign of the numerator). -/
def div : Fl → Fl → Fl
  | .nan, _ => .nan
  | _, .nan => .nan
  | .inf, .inf => .nan
  | .inf, .ninf => .nan
  | .ninf, .inf => .nan
  | .ninf, .ninf => .nan
  | .inf, .fin b => if 0 ≤ b then .inf else .ninf
  | .ninf, .fin b => if 0 ≤ b then .ninf else .inf
  | .fin _, .inf => .fin 0
  | .fin _, .ninf => .fin 0
  | .fin a, .fin b =>
    if b = 0 then (if a = 0 then .nan else if 0 < a then .inf else .ninf)
    else .fin (a / b)

/-- Rust `f64::min` (ignores a `NaN` argument). -/
def fmin : Fl → Fl → Fl
  | .nan, b => b
  | a, .nan => a
  | .ninf, _ => .ninf
  | _, .ninf => .ninf
  | .inf, b => b
  | a, .inf => a
  | .fin a, .fin b => .fin (min a b)

/-- Rust `f64::max` (ignores a `NaN` argument). -/
def fmax : Fl → Fl → Fl
  | .nan, b => b
  | a, .nan => a
  | .inf, _ => .inf
  | _, .inf => .inf
  | .ninf, b => b
  | a, .ninf => a
  | .fin a, .fin b => .fin (max a b)

/-- Rust `f64::trunc`: round toward zero. -/
def trunc : Fl → Fl
  | .fin q => .fin (if 0 ≤ q then (⌊q⌋ : ℚ) else (⌈q⌉ : ℚ))
  | .nan => .nan
  | .inf => .inf
  | .ninf => .ninf

/-- Rust `as u32` on an `f64`: saturating cast; `NaN` goes to 0,
negative values to 0, values beyond `u32::MAX` to `u32::MAX`. -/
def toU32 : Fl → ℕ
  | .fin q => if q < 0 then 0 else min ⌊q⌋.toNat 4294967295
  | .nan => 0
  | .inf => 4294967295
  | .ninf => 0

end Fl

/-- Embedding of `xs.iter().fold(f64::INFINITY, |a, &b| a.min(b))`. -/
def foldMin (xs : List ℚ) : Fl := xs.foldl (fun a b => a.fmin (Fl.fin b)) Fl.inf

/-- Embedding of `xs.iter().fold(f64::NEG_INFINITY, |a, &b| a.max(b))`. -/
def foldMax (xs : List ℚ) : Fl := xs.foldl (fun a b => a.fmax (Fl.fin b)) Fl.ninf

/-- Normalization of a single coordinate:
`range * (v - vmin) / (vmax - vmin) + offset`, evaluated with IEEE
semantics (multiplication binds before the division, as in the
source expression). -/
def normApply (range offset : ℚ) (vmin vmax : Fl) (v : ℚ) : Fl :=
  (((Fl.fin range).mul ((Fl.fin v).sub vmin)).div (vmax.sub vmin)).add (Fl.fin offset)

/-- Embedding of `normalize_points`: bounding box over the whole cloud,
fixed margin `offset = 5`, independent min-max rescaling of each axis.
The degenerate zero-width range is not guarded; it produces `nan`
through the IEEE division. -/
def normalize_points (xs ys : List ℚ) (height width : ℕ) : List Fl × List Fl :=
  let x_min := foldMin xs
  let x_max := foldMax xs
  let y_min := foldMin ys
  let y_max := foldMax ys
  let offset : ℚ := 5
  let width_range := ((width : ℚ) - offset) - offset
  let height_range := ((height : ℚ) - offset) - offset
  (xs.map fun x => normApply width_range offset x_min x_max x,
   ys.map fun y => normApply height_range offset y_min y_max y)

/-- Point-generation loop of `generate_points`: start from the current
point, apply one randomly selected transform per iteration, record
only the post-transform points. -/
def gpLoop (ifs : SigmaFactorIFS) : ℕ → Rng → Vec2 → Option (List ℚ × List ℚ × Rng)
  | 0, rng, _ => some ([], [], rng)
  | n + 1, rng, p =>
    (ifs.apply_random rng p).bind fun qr =>
      (gpLoop ifs n qr.2 qr.1).map fun s => (qr.1.x :: s.1, qr.1.y :: s.2.1, s.2.2)

/-- Embedding of `generate_points`: iterate from the fixed starting
point `(0, 0)`, then normalize the whole cloud in place before
returning. -/
def generate_points (rng : Rng) (ifs : SigmaFactorIFS) (n height width : ℕ) :
    Option ((List Fl × List Fl) × Rng) :=
  (gpLoop ifs n rng ⟨0, 0⟩).map fun s => (normalize_points s.1 s.2.1 height width, s.2.2)

/-- Three-channel 8-bit pixel (`image::Rgb<u8>`). -/
structure Rgb where
  r : ℕ
  g : ℕ
  b : ℕ
deriving DecidableEq

/-- Julia-logo palette entry `JULIA_RED`. -/
def JULIA_RED : Rgb := ⟨203, 60, 51⟩

/-- Julia-logo palette entry `JULIA_GREEN`. -/
def JULIA_GREEN : Rgb := ⟨56, 152, 38⟩

/-- Julia-logo palette entry `JULIA_BLUE`. -/
def JULIA_BLUE : Rgb := ⟨64, 99, 216⟩

/-- Julia-logo palette entry `JULIA_PURPLE`. -/
def JULIA_PURPLE : Rgb := ⟨149, 88, 178⟩

/-- Embedding of `random_julia_color`: one uniform index draw in
`[0, 4)` into the fixed palette. -/
def random_julia_color (rng : Rng) : Rgb × Rng :=
  let g := rng.genRangeLt 0 4
  (match g.1 with
   | 0 => JULIA_RED
   | 1 => JULIA_GREEN
   | 2 => JULIA_BLUE
   | _ => JULIA_PURPLE, g.2)

/-- In-memory RGB raster (`ImageBuffer`); `data x y` is the pixel at
column `x`, row `y`. -/
structure Image where
  width : ℕ
  height : ℕ
  data : ℕ → ℕ → Rgb

/-- Embedding of `ImageBuffer::new`: a canvas of the given size with
every channel zero. -/
def Image.new (width height : ℕ) : Image := ⟨width, height, fun _ _ => ⟨0, 0, 0⟩⟩

/-- Embedding of `put_pixel`. -/
def Image.put (im : Image) (x y : ℕ) (c : Rgb) : Image :=
  { im with data := fun i j => if i = x ∧ j = y then c else im.data i j }

/-- Rasterization loop of `render` (lines 116 to 124 of
`src/core/renderer.rs`): truncate both coordinates toward zero, cast
with Rust `as u32`, and write the color when both indices are in
bounds (dimensions are assumed below `2^32`, so the `as u32` casts of
`width` and `height` are the identity). -/
def drawPoints : List (Fl × Fl) → Image → Rgb → ℕ → ℕ → Image
  | [], im, _, _, _ => im
  | p :: ps, im, color, width, height =>
    let x := (Fl.trunc p.1).toU32
    let y := (Fl.trunc p.2).toU32
    let im1 := if x < width ∧ y < height then im.put x y color else im
    drawPoints ps im1 color width height

/-- Embedding of `Config` from `src/core/config.rs`. -/
structure Config where
  height : ℕ
  width : ℕ
  npoints : ℕ
  ifs_name : String
  ndims : ℕ
  rng_name : String
  seed : ℕ
deriving DecidableEq

/-- Embedding of `Error` from `src/error.rs` (payloads of the TOML and
io variants abstracted to strings). -/
inductive Error where
  | ConfigError (s : String)
  | TomlDeError (s : String)
  | TomlSerError (s : String)
  | IoError (s : String)
  | RenderError (s : String)
deriving DecidableEq

/-- Embedding of `render`: generate and normalize the points, create
the canvas, draw one randomly chosen color at every in-bounds
truncated point. -/
def render (rng : Rng) (ifs : SigmaFactorIFS) (config : Config) : Option Image :=
  (generate_points rng ifs config.npoints config.height config.width).map fun s =>
    let image := Image.new config.width config.height
    let color := (random_julia_color s.2).1
    drawPoints (s.1.1.zip s.1.2) image color config.width config.height

/-- Embedding of `render_from_config`: validate `ifs_name`, then
`ndims`, then `rng_name`; only then seed the stream (`seedFn` models
`Xoshiro256PlusPlus::seed_from_u64`), build the IFS and render. -/
def render_from_config (T : Trig) (seedFn : ℕ → Rng) (config : Config) :
    Option (Except Error Image) :=
  if config.ifs_name ≠ "SigmaFactorIFS" then
    some (.error (.ConfigError ("Unknown IFS: " ++ config.ifs_name)))
  else if config.ndims ≠ 2 then
    some (.error (.ConfigError ("Unsupported dimension: " ++ toString config.ndims)))
  else if config.rng_name = "Xoshiro256PlusPlus" then
    (rand_sigma_factor_ifs T (seedFn config.seed)).bind fun ir =>
      (render ir.2 ir.1 config).map Except.ok
  else
    some (.error (.ConfigError ("Unknown RNG: " ++ config.rng_name)))

/-! Helper lemmas. -/

theorem uniform_snd (rng : Rng) (a b : ℚ) : (uniform rng a b).2 = rng.next := rfl

theorem uniform_bounds {rng : Rng} (hwf : rng.Wf) {a b : ℚ} (hab : a ≤ b) :
    a ≤ (uniform rng a b).1 ∧ (uniform rng a b).1 ≤ b := by
  obtain ⟨h0, h1⟩ := hwf rng.pos
  have hval : (uniform rng a b).1 = a + (b - a) * rng.floats rng.pos := rfl
  rw [hval]
  constructor
  · nlinarith
  · nlinarith

theorem list_sum_le_length (l : List ℚ) (h : ∀ x ∈ l, x ≤ 1) : l.sum ≤ l.length := by
  induction l with
  | nil => simp
  | cons a t ih =>
    simp only [List.sum_cons, List.length_cons]
    have ha := h a (List.mem_cons_self a t)
    have ht := ih fun x hx => h x (List.mem_cons_of_mem a hx)
    push_cast
    linarith

theorem list_sum_pos_of_mem {l : List ℚ} {x : ℚ} (hx : x ∈ l) (hxpos : 0 < x)
    (hnn : ∀ y ∈ l, 0 ≤ y) : 0 < l.sum := by
  induction l with
  | nil => cases hx
  | cons a t ih =>
    simp only [List.sum_cons]
    rcases List.mem_cons.mp hx with h | h
    · have ht : 0 ≤ t.sum := List.sum_nonneg fun y hy => hnn y (List.mem_cons_of_mem a hy)
      subst h; linarith
    · have ha : 0 ≤ a := hnn a (List.mem_cons_self a t)
      have := ih h fun y hy => hnn y (List.mem_cons_of_mem a hy)
      linarith

theorem list_sum_map_div (l : List ℚ) (s : ℚ) :
    (l.map fun x => x / s).sum = l.sum / s := by
  induction l with
  | nil => simp
  | cons a t ih => simp only [List.map_cons, List.sum_cons, ih, add_div]

theorem list_map_eq_of_forall {α β : Type} (l : List α) (f g : α → β)
    (h : ∀ x ∈ l, f x = g x) : l.map f = l.map g := by
  induction l with
  | nil => rfl
  | cons a t ih =>
    simp only [List.map_cons]
    rw [h a (List.mem_cons_self a t), ih fun x hx => h x (List.mem_cons_of_mem a hx)]

theorem forall₂_exists_mem {α β : Type} {R : α → β → Prop} :
    ∀ {l : List α} {l' : List β}, List.Forall₂ R l l' → ∀ {x : α}, x ∈ l →
      ∃ y ∈ l', R x y := by
  intro l l' h
  induction h with
  | nil => intro x hx; cases hx
  | cons hab _ ih =>
    intro x hx
    rcases List.mem_cons.mp hx with h | h
    · subst h; exact ⟨_, List.mem_cons_self _ _, hab⟩
    · obtain ⟨y, hy, hR⟩ := ih h
      exact ⟨y, List.mem_cons_of_mem _ hy, hR⟩

theorem svsLoop_length : ∀ (m : ℕ) (rng : Rng) (bl bu : ℚ),
    (svsLoop m rng bl bu).pairs.length = m := by
  intro m
  induction m with
  | zero => intro rng bl bu; rfl
  | succ k ih => intro rng bl bu; simp only [svsLoop, List.length_cons, ih]

theorem svsLoop_inv : ∀ (m : ℕ) (rng : Rng) (bl bu : ℚ), rng.Wf →
    bl = bu - 3 * m → 0 ≤ bu → bu ≤ 3 * (m + 1) →
    (∀ p ∈ (svsLoop m rng bl bu).pairs, 0 ≤ p.2 ∧ p.2 ≤ p.1 ∧ p.1 ≤ 1) ∧
    (svsLoop m rng bl bu).bl = (svsLoop m rng bl bu).bu ∧
    0 ≤ (svsLoop m rng bl bu).bu ∧ (svsLoop m rng bl bu).bu ≤ 3 ∧
    (svsLoop m rng bl bu).bu =
      bu - ((svsLoop m rng bl bu).pairs.map fun p => p.1 + 2 * p.2).sum ∧
    (svsLoop m rng bl bu).rng.floats = rng.floats := by
  intro m
  induction m with
  | zero =>
    intro rng bl bu hwf hbl hbu0 hbu3
    push_cast at hbl hbu3
    refine ⟨by simp [svsLoop], ?_, hbu0, by show bu ≤ 3; linarith, by simp [svsLoop], rfl⟩
    show bl = bu
    linarith
  | succ k ih =>
    intro rng bl bu hwf hbl hbu0 hbu3
    push_cast at hbl hbu3
    set lo1 := max 0 (bl / 3) with hlo1
    set hi1 := min 1 bu with hhi1
    have hint1 : lo1 ≤ hi1 := by
      refine le_min (max_le (by norm_num) (by linarith)) (max_le hbu0 (by linarith))
    obtain ⟨hs1lo, hs1hi⟩ := uniform_bounds hwf hint1
    set s1 := (uniform rng lo1 hi1).1 with hs1
    have hs1nn : 0 ≤ s1 := le_trans (le_max_left 0 (bl / 3)) hs1lo
    have hs1le1 : s1 ≤ 1 := le_trans hs1hi (min_le_left 1 bu)
    have hs1lebu : s1 ≤ bu := le_trans hs1hi (min_le_right 1 bu)
    have hs1ge : bl / 3 ≤ s1 := le_trans (le_max_right 0 (bl / 3)) hs1lo
    set bl1 := bl - s1 with hbl1
    set bu1 := bu - s1 with hbu1
    set lo2 := max 0 ((1/2) * bl1) with hlo2
    set hi2 := min s1 ((1/2) * bu1) with hhi2
    have hint2 : lo2 ≤ hi2 := by
      refine le_min (max_le hs1nn (by rw [hbl1]; linarith))
        (max_le (by rw [hbu1]; linarith) (by rw [hbl1, hbu1]; linarith))
    have hwf2 : (uniform rng lo1 hi1).2.Wf := hwf
    obtain ⟨hs2lo, hs2hi⟩ := uniform_bounds hwf2 hint2
    set s2 := (uniform (uniform rng lo1 hi1).2 lo2 hi2).1 with hs2
    have hs2nn : 0 ≤ s2 := le_trans (le_max_left 0 ((1/2) * bl1)) hs2lo
    have hs2les1 : s2 ≤ s1 := le_trans hs2hi (min_le_left s1 ((1/2) * bu1))
    have hs2lebu : 2 * s2 ≤ bu1 := by
      have := le_trans hs2hi (min_le_right s1 ((1/2) * bu1)); linarith
    have hs2ge : (1/2) * bl1 ≤ s2 := le_trans (le_max_right 0 ((1/2) * bl1)) hs2lo
    set bl2 := bl1 - 2 * s2 + 3 with hbl2
    set bu2 := bu1 - 2 * s2 with hbu2
    set r2 := (uniform (uniform rng lo1 hi1).2 lo2 hi2).2 with hr2
    have hwf3 : r2.Wf := hwf
    have hrec := ih r2 bl2 bu2 hwf3
      (by rw [hbl2, hbu2, hbl1, hbu1]; linarith)
      (by rw [hbu2]; linarith)
      (by rw [hbu2, hbu1]; linarith)
    obtain ⟨hpairs, hbleq, hbu0f, hbu3f, hsum, hfl⟩ := hrec
    have hstep : svsLoop (k + 1) rng bl bu =
        ⟨(s1, s2) :: (svsLoop k r2 bl2 bu2).pairs, (svsLoop k r2 bl2 bu2).bl,
          (svsLoop k r2 bl2 bu2).bu, (svsLoop k r2 bl2 bu2).rng⟩ := rfl
    rw [hstep]
    refine ⟨?_, hbleq, hbu0f, hbu3f, ?_, ?_⟩
    · intro p hp
      rcases List.mem_cons.mp hp with h | h
      · subst h; exact ⟨hs2nn, hs2les1, hs1le1⟩
      · exact hpairs p h
    · simp only [List.map_cons, List.sum_cons]
      rw [hsum, hbu2, hbu1]
      ring
    · rw [hfl]; rfl

theorem sample_svs_props (rng : Rng) (alpha : ℚ) (n : ℕ) (hwf : rng.Wf)
    (hn1 : 1 ≤ n) (hn4 : n ≤ 4) (hlo : (5 + (n : ℚ)) / 2 ≤ alpha)
    (hhi : alpha ≤ 3 * n) :
    (sample_svs rng alpha n).1.length = n ∧
    (∀ p ∈ (sample_svs rng alpha n).1, 0 ≤ p.2 ∧ p.2 ≤ p.1 ∧ p.1 ≤ 1) ∧
    (∃ p ∈ (sample_svs rng alpha n).1, 0 < p.1 ∧ 0 < p.2) ∧
    (sample_svs rng alpha n).2.floats = rng.floats := by
  have hn1q : (1 : ℚ) ≤ (n : ℚ) := by exact_mod_cast hn1
  have hn4q : (n : ℚ) ≤ 4 := by exact_mod_cast hn4
  have hcast : ((n - 1 : ℕ) : ℚ) = (n : ℚ) - 1 := by
    rw [Nat.cast_sub hn1, Nat.cast_one]
  have hinv := svsLoop_inv (n - 1) rng (alpha - 3 * (n : ℚ) + 3) alpha hwf
    (by rw [hcast]; ring) (by linarith) (by rw [hcast]; linarith)
  set s := svsLoop (n - 1) rng (alpha - 3 * (n : ℚ) + 3) alpha with hs
  obtain ⟨hpairs, hbleq, hbu0, hbu3, hsum, hfl⟩ := hinv
  have hwfs : s.rng.Wf := by intro i; rw [hfl]; exact hwf i
  have hlen : s.pairs.length = n - 1 := by rw [hs]; exact svsLoop_length _ _ _ _
  have hintf : max 0 ((1/2) * (s.bu - 1)) ≤ s.bu / 3 := by
    refine max_le (by linarith) (by linarith)
  obtain ⟨hf2lo, hf2hi⟩ := uniform_bounds hwfs hintf
  set s2f := (uniform s.rng (max 0 ((1/2) * (s.bu - 1))) (s.bu / 3)).1 with hs2f
  have hs2f0 : 0 ≤ s2f := le_trans (le_max_left _ _) hf2lo
  have hs2fge : (1/2) * (s.bu - 1) ≤ s2f := le_trans (le_max_right _ _) hf2lo
  have hs1f0 : 0 ≤ s.bu - 2 * s2f := by linarith
  have hs2les1 : s2f ≤ s.bu - 2 * s2f := by linarith
  have hs1fle1 : s.bu - 2 * s2f ≤ 1 := by linarith
  have hres : sample_svs rng alpha n =
      (s.pairs ++ [(s.bu - 2 * s2f, s2f)],
        (uniform s.rng (max 0 ((1/2) * (s.bu - 1))) (s.bu / 3)).2) := by
    rw [hs2f, hs]; rfl
  rw [hres]
  refine ⟨?_, ?_, ?_, ?_⟩
  · simp only [List.length_append, hlen, List.length_cons, List.length_nil]
    omega
  · intro p hp
    rcases List.mem_append.mp hp with h | h
    · exact hpairs p h
    · rcases List.mem_singleton.mp h with rfl
      exact ⟨hs2f0, hs2les1, hs1fle1⟩
  · by_cases hz : ∀ p ∈ s.pairs, p.2 = 0
    · have hmapeq : s.pairs.map (fun p => p.1 + 2 * p.2) = s.pairs.map (fun p => p.1) :=
        list_map_eq_of_forall _ _ _ fun p hp => by rw [hz p hp]; ring
      have hone : ∀ x ∈ s.pairs.map (fun p => p.1), x ≤ 1 := by
        intro x hx
        obtain ⟨p, hp, rfl⟩ := List.mem_map.mp hx
        exact (hpairs p hp).2.2
      have hble := list_sum_le_length _ hone
      rw [List.length_map, hlen] at hble
      rw [hmapeq] at hsum
      have hbu1 : 1 < s.bu := by rw [hsum, hcast] at *; linarith
      have hpos2 : 0 < s2f := by linarith
      have hpos1 : 0 < s.bu - 2 * s2f := by linarith
      exact ⟨(s.bu - 2 * s2f, s2f),
        List.mem_append_right _ (List.mem_singleton.mpr rfl), hpos1, hpos2⟩
    · push_neg at hz
      obtain ⟨p, hp, hne⟩ := hz
      obtain ⟨h0, h21, _⟩ := hpairs p hp
      have hpos2 : 0 < p.2 := lt_of_le_of_ne h0 (Ne.symm hne)
      exact ⟨p, List.mem_append_left _ hp, lt_of_lt_of_le hpos2 h21, hpos2⟩
  · exact hfl

/-- Head transform built by one iteration of the `rand_sigma_factor_ifs`
loop from the singular-value pair `sv` at stream state `rng` (a
definitional projection of `buildTransforms`, used in proofs). -/
def svHead (T : Trig) (sv : ℚ × ℚ) (rng : Rng) : Affine :=
  let rr1 := random_rotation T rng
  let rr2 := random_rotation T rr1.2
  let rd := random_sign_diagonal rr2.2
  let ub1 := uniform rd.2 (-1) 1
  let ub2 := uniform ub1.2 (-1) 1
  ⟨((rr1.1.mul ⟨sv.1, 0, 0, sv.2⟩).mul rr2.1).mul rd.1, ⟨ub1.1, ub2.1⟩⟩

/-- Stream state after the six draws of one `rand_sigma_factor_ifs`
loop iteration. -/
def svNext (T : Trig) (rng : Rng) : Rng :=
  (uniform (uniform (random_sign_diagonal
    (random_rotation T (random_rotation T rng).2).2).2 (-1) 1).2 (-1) 1).2

theorem buildTransforms_cons (T : Trig) (sv : ℚ × ℚ) (rest : List (ℚ × ℚ)) (rng : Rng) :
    buildTransforms T (sv :: rest) rng =
      (svHead T sv rng :: (buildTransforms T rest (svNext T rng)).1,
       (buildTransforms T rest (svNext T rng)).2) := rfl

theorem svHead_det (T : Trig) (hT : T.Pos) (sv : ℚ × ℚ) (rng : Rng)
    (h1 : 0 < sv.1) (h2 : 0 < sv.2) : 0 < |(svHead T sv rng).determinant| := by
  rw [abs_pos]
  show ((((random_rotation T rng).1.mul ⟨sv.1, 0, 0, sv.2⟩).mul
      (random_rotation T (random_rotation T rng).2).1).mul
      (random_sign_diagonal (random_rotation T (random_rotation T rng).2).2).1).det ≠ 0
  rw [Mat2.det_mul, Mat2.det_mul, Mat2.det_mul]
  have hrot : ∀ (r : Rng), 0 < ((random_rotation T r).1).det := by
    intro r
    have : ((random_rotation T r).1).det =
        T.cos (uniform r 0 (2 * T.pi)).1 ^ 2 + T.sin (uniform r 0 (2 * T.pi)).1 ^ 2 := by
      show T.cos (uniform r 0 (2 * T.pi)).1 * T.cos (uniform r 0 (2 * T.pi)).1 -
        -(T.sin (uniform r 0 (2 * T.pi)).1) * T.sin (uniform r 0 (2 * T.pi)).1 =
          T.cos (uniform r 0 (2 * T.pi)).1 ^ 2 + T.sin (uniform r 0 (2 * T.pi)).1 ^ 2
      ring
    rw [this]
    exact hT _
  have hsig : (Mat2.det ⟨sv.1, 0, 0, sv.2⟩) = sv.1 * sv.2 := by
    show sv.1 * sv.2 - 0 * 0 = sv.1 * sv.2; ring
  have hd : ∀ (r : Rng), ((random_sign_diagonal r).1).det ≠ 0 := by
    intro r
    show (if r.bools r.pos then (1:ℚ) else -1) * (if r.next.bools r.next.pos then (1:ℚ) else -1) -
      0 * 0 ≠ 0
    split_ifs <;> norm_num
  refine mul_ne_zero (mul_ne_zero (mul_ne_zero ?_ ?_) ?_) ?_
  · exact ne_of_gt (hrot rng)
  · rw [hsig]; exact ne_of_gt (mul_pos h1 h2)
  · exact ne_of_gt (hrot _)
  · exact hd _

theorem buildTransforms_props (T : Trig) (hT : T.Pos) : ∀ (ps : List (ℚ × ℚ)) (rng : Rng),
    (buildTransforms T ps rng).1.length = ps.length ∧
    List.Forall₂ (fun (p : ℚ × ℚ) (t : Affine) => 0 < p.1 → 0 < p.2 → 0 < |t.determinant|)
      ps (buildTransforms T ps rng).1 ∧
    (buildTransforms T ps rng).2.floats = rng.floats := by
  intro ps
  induction ps with
  | nil => intro rng; exact ⟨rfl, List.Forall₂.nil, rfl⟩
  | cons sv rest ih =>
    intro rng
    obtain ⟨hl, hf, hfl⟩ := ih (svNext T rng)
    rw [buildTransforms_cons]
    refine ⟨by simp [hl], List.Forall₂.cons (fun h1 h2 => svHead_det T hT sv rng h1 h2) hf, ?_⟩
    rw [hfl]
    rfl

/-- Definitional projection of `rand_sigma_factor_ifs`: the drawn
transform count. -/
def rsfN (rng : Rng) : ℕ := (rng.genRangeIncl 2 4).1

/-- Definitional projection of `rand_sigma_factor_ifs`: the sampled
singular values together with the stream state after them. -/
def rsfSv (rng : Rng) : List (ℚ × ℚ) × Rng :=
  sample_svs (uniform (rng.genRangeIncl 2 4).2
    ((1/2 : ℚ) * (5 + (rsfN rng : ℚ))) ((1/2 : ℚ) * (6 + (rsfN rng : ℚ)))).2
    (uniform (rng.genRangeIncl 2 4).2
      ((1/2 : ℚ) * (5 + (rsfN rng : ℚ))) ((1/2 : ℚ) * (6 + (rsfN rng : ℚ)))).1
    (rsfN rng)

/-- Definitional projection of `rand_sigma_factor_ifs`: the constructed
transforms. -/
def rsfTransforms (T : Trig) (rng : Rng) : List Affine :=
  (buildTransforms T (rsfSv rng).1 (rsfSv rng).2).1

/-- Definitional projection of `rand_sigma_factor_ifs`: the stream
state after all construction draws. -/
def rsfRng (T : Trig) (rng : Rng) : Rng :=
  (buildTransforms T (rsfSv rng).1 (rsfSv rng).2).2

/-- Definitional projection of `rand_sigma_factor_ifs`: the normalized
weights. -/
def rsfWeights (T : Trig) (rng : Rng) : List ℚ :=
  ((rsfTransforms T rng).map fun t => |t.determinant|).map
    fun w => w / ((rsfTransforms T rng).map fun t => |t.determinant|).sum

theorem rand_sigma_factor_ifs_eq (T : Trig) (rng : Rng) :
    rand_sigma_factor_ifs T rng =
      (SigmaFactorIFS.new (rsfTransforms T rng) (rsfWeights T rng)).map
        fun ifs => (ifs, rsfRng T rng) := rfl

theorem rsfN_bounds (rng : Rng) : 2 ≤ rsfN rng ∧ rsfN rng ≤ 4 := by
  unfold rsfN Rng.genRangeIncl
  have : rng.ints rng.pos % (4 - 2 + 1) < 3 := Nat.mod_lt _ (by norm_num)
  omega

theorem rand_sigma_factor_ifs_props (T : Trig) (rng : Rng) (hT : T.Pos) (hwf : rng.Wf) :
    ∃ ifs rng', rand_sigma_factor_ifs T rng = some (ifs, rng') ∧
      ifs.transforms = rsfTransforms T rng ∧
      2 ≤ ifs.transforms.length ∧ ifs.transforms.length ≤ 4 ∧
      ifs.weights.length = ifs.transforms.length ∧
      ifs.weights = ifs.transforms.map
        (fun t => |t.determinant| / (ifs.transforms.map fun u => |u.determinant|).sum) ∧
      (∀ w ∈ ifs.weights, 0 ≤ w) ∧
      ifs.weights.sum = 1 ∧
      0 < (ifs.transforms.map fun u => |u.determinant|).sum := by
  obtain ⟨hn2, hn4⟩ := rsfN_bounds rng
  have hn2q : (2 : ℚ) ≤ (rsfN rng : ℚ) := by exact_mod_cast hn2
  have hn4q : (rsfN rng : ℚ) ≤ 4 := by exact_mod_cast hn4
  have hwf1 : ((rng.genRangeIncl 2 4).2).Wf := hwf
  have halpha := uniform_bounds hwf1
    (show (1/2 : ℚ) * (5 + (rsfN rng : ℚ)) ≤ (1/2 : ℚ) * (6 + (rsfN rng : ℚ)) by linarith)
  have h52 : (5 + (rsfN rng : ℚ)) / 2 = (1/2) * (5 + (rsfN rng : ℚ)) := by ring
  have hwf2 : ((uniform (rng.genRangeIncl 2 4).2
      ((1/2 : ℚ) * (5 + (rsfN rng : ℚ))) ((1/2 : ℚ) * (6 + (rsfN rng : ℚ)))).2).Wf := hwf
  have hsv := sample_svs_props
    (uniform (rng.genRangeIncl 2 4).2
      ((1/2 : ℚ) * (5 + (rsfN rng : ℚ))) ((1/2 : ℚ) * (6 + (rsfN rng : ℚ)))).2
    (uniform (rng.genRangeIncl 2 4).2
      ((1/2 : ℚ) * (5 + (rsfN rng : ℚ))) ((1/2 : ℚ) * (6 + (rsfN rng : ℚ)))).1
    (rsfN rng) hwf2 (by omega) hn4
    (by rw [h52]; exact halpha.1)
    (by refine le_trans halpha.2 ?_; linarith)
  have hsvEq : rsfSv rng = sample_svs
      (uniform (rng.genRangeIncl 2 4).2
        ((1/2 : ℚ) * (5 + (rsfN rng : ℚ))) ((1/2 : ℚ) * (6 + (rsfN rng : ℚ)))).2
      (uniform (rng.genRangeIncl 2 4).2
        ((1/2 : ℚ) * (5 + (rsfN rng : ℚ))) ((1/2 : ℚ) * (6 + (rsfN rng : ℚ)))).1
      (rsfN rng) := rfl
  rw [← hsvEq] at hsv
  obtain ⟨hsvlen, hsvbnd, hsvpos, hsvfl⟩ := hsv
  have hbt := buildTransforms_props T hT (rsfSv rng).1 (rsfSv rng).2
  obtain ⟨hbtlen, hbtfa, hbtfl⟩ := hbt
  have htlen : (rsfTransforms T rng).length = rsfN rng := by
    rw [rsfTransforms, hbtlen]
    exact hsvlen
  have hSnn : ∀ x ∈ (rsfTransforms T rng).map fun t => |t.determinant|, 0 ≤ x := by
    intro x hx
    obtain ⟨t, _, rfl⟩ := List.mem_map.mp hx
    exact abs_nonneg _
  have hSpos : 0 < ((rsfTransforms T rng).map fun t => |t.determinant|).sum := by
    obtain ⟨p, hp, hp1, hp2⟩ := hsvpos
    obtain ⟨t, ht, hdet⟩ := forall₂_exists_mem hbtfa hp
    exact list_sum_pos_of_mem (List.mem_map_of_mem _ ht) (hdet hp1 hp2) hSnn
  have hwlen : (rsfWeights T rng).length = (rsfTransforms T rng).length := by
    rw [rsfWeights]; simp
  have hnew : SigmaFactorIFS.new (rsfTransforms T rng) (rsfWeights T rng) =
      some ⟨rsfTransforms T rng, rsfWeights T rng⟩ := by
    rw [SigmaFactorIFS.new, if_pos hwlen.symm]
  refine ⟨⟨rsfTransforms T rng, rsfWeights T rng⟩, rsfRng T rng, ?_, rfl, ?_, ?_, ?_, ?_, ?_, ?_, ?_⟩
  · rw [rand_sigma_factor_ifs_eq, hnew]
    rfl
  · show 2 ≤ (rsfTransforms T rng).length
    omega
  · show (rsfTransforms T rng).length ≤ 4
    omega
  · exact hwlen
  · show rsfWeights T rng = _
    rw [rsfWeights, List.map_map]
    rfl
  · intro w hw
    rw [rsfWeights] at hw
    obtain ⟨v, hv, rfl⟩ := List.mem_map.mp hw
    exact div_nonneg (hSnn v hv) (le_of_lt hSpos)
  · show (rsfWeights T rng).sum = 1
    rw [rsfWeights, list_sum_map_div]
    exact div_self (ne_of_gt hSpos)
  · exact hSpos

theorem wiPick_spec : ∀ (ws : List ℚ) (x : ℚ), 0 ≤ x → x < ws.sum → (∀ w ∈ ws, 0 ≤ w) →
    wiPick ws x < ws.length ∧ 0 < ws.getD (wiPick ws x) 0 := by
  intro ws
  induction ws with
  | nil =>
    intro x h0 hs _
    simp only [List.sum_nil] at hs
    linarith
  | cons w t ih =>
    intro x h0 hs hnn
    by_cases hx : x < w
    · refine ⟨?_, ?_⟩
      · simp only [wiPick, if_pos hx, List.length_cons]
        omega
      · simp only [wiPick, if_pos hx, List.getD_cons_zero]
        linarith
    · push_neg at hx
      have h0' : 0 ≤ x - w := by linarith
      have hs' : x - w < t.sum := by
        rw [List.sum_cons] at hs; linarith
      obtain ⟨hlt, hpos⟩ := ih (x - w) h0' hs' fun v hv => hnn v (List.mem_cons_of_mem w hv)
      refine ⟨?_, ?_⟩
      · simp only [wiPick, if_neg (not_lt.mpr hx), List.length_cons]
        omega
      · simpa only [wiPick, if_neg (not_lt.mpr hx), List.getD_cons_succ] using hpos

theorem apply_random_some {ifs : SigmaFactorIFS} (hv : wiValid ifs.weights)
    (rng : Rng) (p : Vec2) :
    ifs.apply_random rng p = some
      ((ifs.transforms.getD
        (wiPick ifs.weights (ifs.weights.sum * rng.floats rng.pos)) default).apply p,
       rng.next) := by
  unfold SigmaFactorIFS.apply_random
  rw [if_pos hv]

theorem apply_random_none {ifs : SigmaFactorIFS} (hv : ¬ wiValid ifs.weights)
    (rng : Rng) (p : Vec2) : ifs.apply_random rng p = none := by
  unfold SigmaFactorIFS.apply_random
  rw [if_neg hv]

theorem gpLoop_some (ifs : SigmaFactorIFS) (hv : wiValid ifs.weights) :
    ∀ (n : ℕ) (rng : Rng) (p : Vec2),
      ∃ xs ys r, gpLoop ifs n rng p = some (xs, ys, r) ∧ xs.length = n ∧ ys.length = n := by
  intro n
  induction n with
  | zero => intro rng p; exact ⟨[], [], rng, rfl, rfl, rfl⟩
  | succ k ih =>
    intro rng p
    set q := (ifs.transforms.getD
      (wiPick ifs.weights (ifs.weights.sum * rng.floats rng.pos)) default).apply p with hq
    obtain ⟨xs, ys, r, hrec, h1, h2⟩ := ih rng.next q
    refine ⟨q.x :: xs, q.y :: ys, r, ?_, by simp [h1], by simp [h2]⟩
    simp only [gpLoop]
    rw [apply_random_some hv, ← hq]
    show (gpLoop ifs k rng.next q).map _ = _
    rw [hrec]
    rfl

theorem gpLoop_head (ifs : SigmaFactorIFS) (hv : wiValid ifs.weights)
    (rng : Rng) (p : Vec2) (n : ℕ) :
    ∃ q xs ys r', ifs.apply_random rng p = some (q, rng.next) ∧
      gpLoop ifs (n + 1) rng p = some (q.x :: xs, q.y :: ys, r') ∧
      gpLoop ifs n rng.next q = some (xs, ys, r') := by
  set q := (ifs.transforms.getD
    (wiPick ifs.weights (ifs.weights.sum * rng.floats rng.pos)) default).apply p with hq
  obtain ⟨xs, ys, r, hrec, _, _⟩ := gpLoop_some ifs hv n rng.next q
  refine ⟨q, xs, ys, r, apply_random_some hv rng p, ?_, hrec⟩
  simp only [gpLoop]
  rw [apply_random_some hv, ← hq]
  show (gpLoop ifs n rng.next q).map _ = _
  rw [hrec]
  rfl

theorem foldl_fmin_fin : ∀ (xs : List ℚ) (a : ℚ),
    xs.foldl (fun p q => p.fmin (Fl.fin q)) (Fl.fin a) = Fl.fin (xs.foldl min a) := by
  intro xs
  induction xs with
  | nil => intro a; rfl
  | cons x t ih =>
    intro a
    simp only [List.foldl_cons]
    exact ih (min a x)

theorem foldl_fmax_fin : ∀ (xs : List ℚ) (a : ℚ),
    xs.foldl (fun p q => p.fmax (Fl.fin q)) (Fl.fin a) = Fl.fin (xs.foldl max a) := by
  intro xs
  induction xs with
  | nil => intro a; rfl
  | cons x t ih =>
    intro a
    simp only [List.foldl_cons]
    exact ih (max a x)

theorem foldMin_cons (x : ℚ) (xs : List ℚ) :
    foldMin (x :: xs) = Fl.fin (xs.foldl min x) := by
  rw [foldMin, List.foldl_cons]
  exact foldl_fmin_fin xs x

theorem foldMax_cons (x : ℚ) (xs : List ℚ) :
    foldMax (x :: xs) = Fl.fin (xs.foldl max x) := by
  rw [foldMax, List.foldl_cons]
  exact foldl_fmax_fin xs x

theorem foldl_min_le : ∀ (xs : List ℚ) (a : ℚ),
    xs.foldl min a ≤ a ∧ ∀ x ∈ xs, xs.foldl min a ≤ x := by
  intro xs
  induction xs with
  | nil => intro a; exact ⟨le_refl a, by simp⟩
  | cons y t ih =>
    intro a
    obtain ⟨h1, h2⟩ := ih (min a y)
    simp only [List.foldl_cons]
    refine ⟨le_trans h1 (min_le_left a y), ?_⟩
    intro x hx
    rcases List.mem_cons.mp hx with rfl | hx
    · exact le_trans h1 (min_le_right a x)
    · exact h2 x hx

theorem foldl_max_ge : ∀ (xs : List ℚ) (a : ℚ),
    a ≤ xs.foldl max a ∧ ∀ x ∈ xs, x ≤ xs.foldl max a := by
  intro xs
  induction xs with
  | nil => intro a; exact ⟨le_refl a, by simp⟩
  | cons y t ih =>
    intro a
    obtain ⟨h1, h2⟩ := ih (max a y)
    simp only [List.foldl_cons]
    refine ⟨le_trans (le_max_left a y) h1, ?_⟩
    intro x hx
    rcases List.mem_cons.mp hx with rfl | hx
    · exact le_trans (le_max_right a x) h1
    · exact h2 x hx

theorem foldl_min_const : ∀ (xs : List ℚ) (c : ℚ), (∀ x ∈ xs, x = c) →
    xs.foldl min c = c := by
  intro xs
  induction xs with
  | nil => intro c _; rfl
  | cons y t ih =>
    intro c hc
    have hy : y = c := hc y (List.mem_cons_self y t)
    simp only [List.foldl_cons, hy, min_self]
    exact ih c fun x hx => hc x (List.mem_cons_of_mem y hx)

theorem foldl_max_const : ∀ (xs : List ℚ) (c : ℚ), (∀ x ∈ xs, x = c) →
    xs.foldl max c = c := by
  intro xs
  induction xs with
  | nil => intro c _; rfl
  | cons y t ih =>
    intro c hc
    have hy : y = c := hc y (List.mem_cons_self y t)
    simp only [List.foldl_cons, hy, max_self]
    exact ih c fun x hx => hc x (List.mem_cons_of_mem y hx)

theorem normApply_nan (range offset c : ℚ) :
    normApply range offset (Fl.fin c) (Fl.fin c) c = Fl.nan := by
  simp [normApply, Fl.sub, Fl.neg, Fl.add, Fl.mul, Fl.div]

theorem normApply_fin (range offset v m M : ℚ) (hne : M - m ≠ 0) :
    normApply range offset (Fl.fin m) (Fl.fin M) v =
      Fl.fin (range * (v - m) / (M - m) + offset) := by
  simp [normApply, Fl.sub, Fl.neg, Fl.add, Fl.mul, Fl.div, hne, ← sub_eq_add_neg]

theorem normalize_points_eq (xs ys : List ℚ) (h w : ℕ) :
    normalize_points xs ys h w =
      (xs.map (normApply (((w : ℚ) - 5) - 5) 5 (foldMin xs) (foldMax xs)),
       ys.map (normApply (((h : ℚ) - 5) - 5) 5 (foldMin ys) (foldMax ys))) := rfl

theorem foldMin_bounds {l : List ℚ} {m : ℚ} (hmin : foldMin l = Fl.fin m) :
    ∀ v ∈ l, m ≤ v := by
  cases l with
  | nil => simp [foldMin] at hmin
  | cons v0 t =>
    rw [foldMin_cons] at hmin
    have hm : t.foldl min v0 = m := by
      simpa using hmin
    intro v hv
    obtain ⟨h1, h2⟩ := foldl_min_le t v0
    rcases List.mem_cons.mp hv with rfl | hv
    · rw [← hm]; exact h1
    · rw [← hm]; exact h2 v hv

theorem foldMax_bounds {l : List ℚ} {M : ℚ} (hmax : foldMax l = Fl.fin M) :
    ∀ v ∈ l, v ≤ M := by
  cases l with
  | nil => simp [foldMax] at hmax
  | cons v0 t =>
    rw [foldMax_cons] at hmax
    have hM : t.foldl max v0 = M := by
      simpa using hmax
    intro v hv
    obtain ⟨h1, h2⟩ := foldl_max_ge t v0
    rcases List.mem_cons.mp hv with rfl | hv
    · rw [← hM]; exact h1
    · rw [← hM]; exact h2 v hv

theorem normAxis_range (l : List ℚ) (w : ℕ) (m M : ℚ)
    (hmin : foldMin l = Fl.fin m) (hmax : foldMax l = Fl.fin M)
    (hlt : m < M) (hw : 2 * 5 ≤ (w : ℚ)) :
    l.map (normApply (((w : ℚ) - 5) - 5) 5 (foldMin l) (foldMax l)) =
      l.map (fun v => Fl.fin (((w : ℚ) - 2 * 5) * (v - m) / (M - m) + 5)) ∧
    ∀ v ∈ l, 5 ≤ ((w : ℚ) - 2 * 5) * (v - m) / (M - m) + 5 ∧
      ((w : ℚ) - 2 * 5) * (v - m) / (M - m) + 5 ≤ (w : ℚ) - 5 := by
  have hD : 0 < M - m := by linarith
  have hne : M - m ≠ 0 := ne_of_gt hD
  have hlow := foldMin_bounds hmin
  have hhigh := foldMax_bounds hmax
  constructor
  · rw [hmin, hmax]
    refine list_map_eq_of_forall l _ _ fun v _ => ?_
    rw [normApply_fin _ _ _ _ _ hne]
    exact congrArg Fl.fin (by ring)
  · intro v hv
    have hb1 : m ≤ v := hlow v hv
    have hb2 : v ≤ M := hhigh v hv
    have ht0 : 0 ≤ ((w : ℚ) - 2 * 5) * (v - m) / (M - m) :=
      div_nonneg (mul_nonneg (by linarith) (by linarith)) (le_of_lt hD)
    have ht1 : ((w : ℚ) - 2 * 5) * (v - m) / (M - m) ≤ (w : ℚ) - 2 * 5 := by
      rw [div_le_iff₀ hD]
      exact mul_le_mul_of_nonneg_left (by linarith) (by linarith)
    exact ⟨by linarith, by linarith⟩

theorem svsClaimLoop_eq : ∀ (m : ℕ) (rng : Rng) (bl bu blC buC : ℚ) (acc : List (ℚ × ℚ)),
    blC = bl → buC = bu →
    svsClaimLoop m rng blC buC acc =
      (acc ++ (svsLoop m rng bl bu).pairs, (svsLoop m rng bl bu).bl,
       (svsLoop m rng bl bu).bu, (svsLoop m rng bl bu).rng) := by
  intro m
  induction m with
  | zero =>
    intro rng bl bu blC buC acc h1 h2
    rw [h1, h2]
    simp [svsClaimLoop, svsLoop]
  | succ k ih =>
    intro rng bl bu blC buC acc h1 h2
    rw [h1, h2]
    simp only [svsClaimLoop, svsLoop]
    have ehalf1 : ∀ q : ℚ, max 0 (q / 2) = max 0 ((1/2) * q) :=
      fun q => congrArg (max 0) (by ring)
    have ehalf2 : ∀ (a q : ℚ), min a (q / 2) = min a ((1/2) * q) :=
      fun a q => congrArg (min a) (by ring)
    rw [ehalf1, ehalf2]
    generalize uniform rng (max 0 (bl / 3)) (min 1 bu) = u1
    generalize uniform u1.2 (max 0 ((1/2) * (bl - u1.1))) (min u1.1 ((1/2) * (bu - u1.1))) = u2
    rw [ih u2.2 (bl - u1.1 - 2 * u2.1 + 3) (bu - u1.1 - 2 * u2.1)
        (bl - u1.1 + (3 - 2 * u2.1)) (bu - u1.1 - 2 * u2.1)
        (acc ++ [(u1.1, u2.1)]) (by ring) rfl]
    simp

theorem sample_svs_eq_claim (rng : Rng) (alpha : ℚ) (n : ℕ) :
    sample_svs rng alpha n = sampleSvsClaim rng alpha n := by
  simp only [sample_svs, sampleSvsClaim]
  rw [svsClaimLoop_eq (n - 1) rng (alpha - 3 * (n : ℚ) + 3) alpha _ _ [] rfl rfl]
  have emax : ∀ q : ℚ, max 0 ((q - 1) / 2) = max 0 ((1/2) * (q - 1)) :=
    fun q => congrArg (max 0) (by ring)
  rw [emax]
  simp

/-! Concrete fixtures used by witnesses. -/

/-- Concrete well-formed stream. -/
def wRng : Rng := ⟨fun _ => 1/2, fun _ => true, fun _ => 0, 0⟩

theorem wRng_wf : wRng.Wf := by
  intro i
  constructor <;> norm_num [wRng]

/-- Concrete trig environment. -/
def wTrig : Trig := ⟨355/113, fun _ => 1, fun _ => 0⟩

theorem wTrig_pos : wTrig.Pos := by
  intro a
  norm_num [wTrig]

/-- Concrete valid configuration. -/
def wConfig : Config := ⟨100, 100, 1000, "SigmaFactorIFS", 2, "Xoshiro256PlusPlus", 42⟩

/-- Concrete configuration with an unknown IFS identifier. -/
def wBadConfig : Config := ⟨100, 100, 1000, "Unknown", 2, "Xoshiro256PlusPlus", 42⟩

/-- Concrete configuration with zero points. -/
def wConfig0 : Config := ⟨100, 100, 0, "SigmaFactorIFS", 2, "Xoshiro256PlusPlus", 42⟩

/-- Concrete one-map IFS with weight 1. -/
def wIfs : SigmaFactorIFS := ⟨[⟨⟨1, 0, 0, 1⟩, ⟨0, 0⟩⟩], [1]⟩

/-! Claim theorems. -/

/-- C1: rendering is deterministic.  First part: the output of
`render_from_config` is a pure function of the `Config` value (field-wise
equal configurations give identical results for the same seed function
and trig environment).  Second part: on a validated configuration the
result factors exactly as sampler draws, then point-generation draws
from the sampler's final stream state, then the single color draw from
the generator's final stream state — the documented consumption order. -/
theorem render_from_config_deterministic (T : Trig) (seedFn : ℕ → Rng) :
    (∀ c₁ c₂ : Config, c₁.height = c₂.height → c₁.width = c₂.width →
      c₁.npoints = c₂.npoints → c₁.ifs_name = c₂.ifs_name → c₁.ndims = c₂.ndims →
      c₁.rng_name = c₂.rng_name → c₁.seed = c₂.seed →
      render_from_config T seedFn c₁ = render_from_config T seedFn c₂) ∧
    (∀ c : Config, c.ifs_name = "SigmaFactorIFS" → c.ndims = 2 →
      c.rng_name = "Xoshiro256PlusPlus" →
      render_from_config T seedFn c =
        (rand_sigma_factor_ifs T (seedFn c.seed)).bind fun ir =>
          (generate_points ir.2 ir.1 c.npoints c.height c.width).map fun s =>
            Except.ok (drawPoints (s.1.1.zip s.1.2) (Image.new c.width c.height)
              ((random_julia_color s.2).1) c.width c.height)) := by
  constructor
  · intro c₁ c₂ h1 h2 h3 h4 h5 h6 h7
    cases c₁; cases c₂
    simp only at h1 h2 h3 h4 h5 h6 h7
    subst h1; subst h2; subst h3; subst h4; subst h5; subst h6; subst h7
    rfl
  · intro c h1 h2 h3
    unfold render_from_config
    rw [if_neg (by simp [h1]), if_neg (by simp [h2]), if_pos h3]
    simp only [render, Option.map_map]
    rfl

theorem render_from_config_deterministic_witness :
    render_from_config wTrig (fun _ => wRng) wConfig =
      (rand_sigma_factor_ifs wTrig ((fun _ => wRng) wConfig.seed)).bind fun ir =>
        (generate_points ir.2 ir.1 wConfig.npoints wConfig.height wConfig.width).map fun s =>
          Except.ok (drawPoints (s.1.1.zip s.1.2) (Image.new wConfig.width wConfig.height)
            ((random_julia_color s.2).1) wConfig.width wConfig.height) :=
  (render_from_config_deterministic wTrig (fun _ => wRng)).2 wConfig rfl rfl rfl

/-- C9: `render_from_config` validates the configuration before any
sampling: an unknown IFS name, an unsupported dimension (checked after
the IFS name), or an unknown RNG name each produce the typed
configuration error, and the result is then independent of the seed
function — no stream is built, no IFS constructed, no point generated
and no partial image produced. -/
theorem render_from_config_validates (T : Trig) :
    (∀ (sf sf' : ℕ → Rng) (c : Config), c.ifs_name ≠ "SigmaFactorIFS" →
      render_from_config T sf c =
        some (.error (.ConfigError ("Unknown IFS: " ++ c.ifs_name))) ∧
      render_from_config T sf c = render_from_config T sf' c) ∧
    (∀ (sf sf' : ℕ → Rng) (c : Config), c.ifs_name = "SigmaFactorIFS" → c.ndims ≠ 2 →
      render_from_config T sf c =
        some (.error (.ConfigError ("Unsupported dimension: " ++ toString c.ndims))) ∧
      render_from_config T sf c = render_from_config T sf' c) ∧
    (∀ (sf sf' : ℕ → Rng) (c : Config), c.ifs_name = "SigmaFactorIFS" → c.ndims = 2 →
      c.rng_name ≠ "Xoshiro256PlusPlus" →
      render_from_config T sf c =
        some (.error (.ConfigError ("Unknown RNG: " ++ c.rng_name))) ∧
      render_from_config T sf c = render_from_config T sf' c) := by
  refine ⟨?_, ?_, ?_⟩
  · intro sf sf' c h
    constructor <;> simp [render_from_config, h]
  · intro sf sf' c h1 h2
    constructor <;> simp [render_from_config, h1, h2]
  · intro sf sf' c h1 h2 h3
    constructor <;> simp [render_from_config, h1, h2, h3]

theorem render_from_config_validates_witness :
    render_from_config wTrig (fun _ => wRng) wBadConfig =
      some (.error (.ConfigError ("Unknown IFS: " ++ wBadConfig.ifs_name))) ∧
    render_from_config wTrig (fun _ => wRng) wBadConfig =
      render_from_config wTrig (fun _ => wRng.next) wBadConfig :=
  (render_from_config_validates wTrig).1 (fun _ => wRng) (fun _ => wRng.next) wBadConfig
    (by decide)

/-- C10: `apply_random` builds the weighted index on every call.  With
finite, nonnegative weights of positive sum the `unwrap` cannot panic
and the call returns `transforms[idx].apply(point)` for an in-range
index whose weight is positive; with all-zero weights, or with any
negative weight, the construction fails and the call panics (`none`). -/
theorem apply_random_safety :
    (∀ (ifs : SigmaFactorIFS) (rng : Rng) (p : Vec2), rng.Wf →
      ifs.weights ≠ [] → (∀ w ∈ ifs.weights, 0 ≤ w) → 0 < ifs.weights.sum →
      ∃ idx, ifs.apply_random rng p =
          some ((ifs.transforms.getD idx default).apply p, rng.next) ∧
        idx < ifs.weights.length ∧ 0 < ifs.weights.getD idx 0) ∧
    (∀ (ifs : SigmaFactorIFS) (rng : Rng) (p : Vec2),
      (∀ w ∈ ifs.weights, w = 0) → ifs.apply_random rng p = none) ∧
    (∀ (ifs : SigmaFactorIFS) (rng : Rng) (p : Vec2) (w : ℚ), w ∈ ifs.weights → w < 0 →
      ifs.apply_random rng p = none) := by
  refine ⟨?_, ?_, ?_⟩
  · intro ifs rng p hwf hne hnn hpos
    have hv : wiValid ifs.weights := ⟨hne, hnn, ne_of_gt hpos⟩
    obtain ⟨hu0, hu1⟩ := hwf rng.pos
    have hx0 : 0 ≤ ifs.weights.sum * rng.floats rng.pos := mul_nonneg (le_of_lt hpos) hu0
    have hxlt : ifs.weights.sum * rng.floats rng.pos < ifs.weights.sum := by nlinarith
    obtain ⟨hlt, hgd⟩ := wiPick_spec ifs.weights _ hx0 hxlt hnn
    exact ⟨_, apply_random_some hv rng p, hlt, hgd⟩
  · intro ifs rng p hz
    refine apply_random_none (fun hv => ?_) rng p
    exact hv.2.2 (List.sum_eq_zero hz)
  · intro ifs rng p w hw hneg
    refine apply_random_none (fun hv => ?_) rng p
    exact absurd (hv.2.1 w hw) (not_le.mpr hneg)

theorem apply_random_safety_witness :
    ∃ idx, wIfs.apply_random wRng ⟨0, 0⟩ =
        some ((wIfs.transforms.getD idx default).apply ⟨0, 0⟩, wRng.next) ∧
      idx < wIfs.weights.length ∧ 0 < wIfs.weights.getD idx 0 :=
  apply_random_safety.1 wIfs wRng ⟨0, 0⟩ wRng_wf (by decide) (by decide) (by norm_num [wIfs])

/-- C4: for every well-formed stream, every `n` in `{2,3,4}` and every
`alpha` in `[0.5*(5+n), 0.5*(6+n)]`, all sampled singular-value pairs
satisfy `0 ≤ sigma1` and `0 ≤ sigma2`, the derived final pair included
(in this exact-rational model the values are finite by construction,
and the proved bounds rule out the overflow that could produce IEEE
specials). -/
theorem sample_svs_nonneg (rng : Rng) (alpha : ℚ) (n : ℕ) (hwf : rng.Wf)
    (hn : n = 2 ∨ n = 3 ∨ n = 4)
    (hlo : (1/2 : ℚ) * (5 + (n : ℚ)) ≤ alpha)
    (hhi : alpha ≤ (1/2 : ℚ) * (6 + (n : ℚ))) :
    ∀ p ∈ (sample_svs rng alpha n).1, 0 ≤ p.1 ∧ 0 ≤ p.2 := by
  have hn1 : 1 ≤ n := by rcases hn with rfl | rfl | rfl <;> norm_num
  have hn4 : n ≤ 4 := by rcases hn with rfl | rfl | rfl <;> norm_num
  have hn2q : (2 : ℚ) ≤ (n : ℚ) := by rcases hn with rfl | rfl | rfl <;> norm_num
  obtain ⟨_, hbnd, _, _⟩ :=
    sample_svs_props rng alpha n hwf hn1 hn4 (by linarith) (by linarith)
  intro p hp
  obtain ⟨h2, h21, _⟩ := hbnd p hp
  exact ⟨le_trans h2 h21, h2⟩

theorem sample_svs_nonneg_witness :
    wRng.Wf ∧ ∀ p ∈ (sample_svs wRng (15/4) 2).1, 0 ≤ p.1 ∧ 0 ≤ p.2 :=
  ⟨wRng_wf, sample_svs_nonneg wRng (15/4) 2 wRng_wf (Or.inl rfl) (by norm_num) (by norm_num)⟩

/-- C2: `sample_svs` implements exactly the claimed sequential
range-tightening recurrence — it agrees, draw for draw and bound for
bound, with `sampleSvsClaim`, the model transcribed from the claim
text — and returns exactly `n` pairs in draw order. -/
theorem sample_svs_matches_claim :
    (∀ (rng : Rng) (alpha : ℚ) (n : ℕ),
      sample_svs rng alpha n = sampleSvsClaim rng alpha n) ∧
    (∀ (rng : Rng) (alpha : ℚ) (n : ℕ), 1 ≤ n →
      (sample_svs rng alpha n).1.length = n) := by
  refine ⟨sample_svs_eq_claim, ?_⟩
  intro rng alpha n hn
  simp only [sample_svs, List.length_append, svsLoop_length, List.length_cons,
    List.length_nil]
  omega

theorem sample_svs_matches_claim_witness :
    (1 : ℕ) ≤ 2 ∧ (sample_svs wRng (15/4) 2).1.length = 2 :=
  ⟨by norm_num, sample_svs_matches_claim.2 wRng (15/4) 2 (by norm_num)⟩

/-- C3: for every trig environment with nonvanishing rotation
determinants and every well-formed stream, `rand_sigma_factor_ifs`
succeeds and returns between 2 and 4 transforms, as many weights as
transforms, every weight nonnegative, each weight equal to the
absolute determinant normalized by the determinant sum, and the weight
sum within `1e-10` of 1 (it is exactly 1 in exact arithmetic, because
the determinant sum is provably positive for every stream). -/
theorem rand_sigma_factor_ifs_wellformed (T : Trig) (rng : Rng)
    (hT : T.Pos) (hwf : rng.Wf) :
    ∃ ifs rng', rand_sigma_factor_ifs T rng = some (ifs, rng') ∧
      2 ≤ ifs.transforms.length ∧ ifs.transforms.length ≤ 4 ∧
      ifs.weights.length = ifs.transforms.length ∧
      (∀ w ∈ ifs.weights, 0 ≤ w) ∧
      ifs.weights = ifs.transforms.map
        (fun t => |t.determinant| / (ifs.transforms.map fun u => |u.determinant|).sum) ∧
      |ifs.weights.sum - 1| ≤ 1 / 10000000000 := by
  obtain ⟨ifs, rng', heq, _, hlen2, hlen4, hwlen, hweq, hnn, hsum, _⟩ :=
    rand_sigma_factor_ifs_props T rng hT hwf
  exact ⟨ifs, rng', heq, hlen2, hlen4, hwlen, hnn, hweq, by rw [hsum]; norm_num⟩

theorem rand_sigma_factor_ifs_wellformed_witness :
    wTrig.Pos ∧ wRng.Wf ∧
    ∃ ifs rng', rand_sigma_factor_ifs wTrig wRng = some (ifs, rng') ∧
      2 ≤ ifs.transforms.length ∧ ifs.transforms.length ≤ 4 ∧
      ifs.weights.length = ifs.transforms.length ∧
      (∀ w ∈ ifs.weights, 0 ≤ w) ∧
      ifs.weights = ifs.transforms.map
        (fun t => |t.determinant| / (ifs.transforms.map fun u => |u.determinant|).sum) ∧
      |ifs.weights.sum - 1| ≤ 1 / 10000000000 :=
  ⟨wTrig_pos, wRng_wf, rand_sigma_factor_ifs_wellformed wTrig wRng wTrig_pos wRng_wf⟩

/-- C5 counterexample: with `width = 2` (so the margin interval
`[offset, width - offset] = [5, -3]` is empty) and the cloud `[0, 1]`,
the normalized value `-3` of `x = 1` does not lie in that interval, so
the claim as stated fails for small widths. -/
theorem normalize_points_range_counterexample :
    Fl.fin (-3) ∈ (normalize_points [0, 1] [0, 1] 20 2).1 ∧
    ¬ ((5 : ℚ) ≤ -3 ∧ (-3 : ℚ) ≤ (2 : ℚ) - 5) := by
  constructor
  · have h1 : (normalize_points [0, 1] [0, 1] 20 2).1 = [Fl.fin 5, Fl.fin (-3)] := by
      rw [normalize_points_eq]
      simp only [List.map_cons, List.map_nil]
      rw [show foldMin [(0 : ℚ), 1] = Fl.fin 0 by decide,
          show foldMax [(0 : ℚ), 1] = Fl.fin 1 by decide,
          normApply_fin _ _ _ _ _ (by norm_num), normApply_fin _ _ _ _ _ (by norm_num)]
      norm_num
    rw [h1]
    exact List.mem_cons_of_mem _ (List.mem_cons_self _ _)
  · norm_num

/-- C5 amended: `normalize_points` computes the bounding box over the
whole cloud, uses the fixed margin `offset = 5`, and rescales each axis
independently by
`v' = (width - 2*offset) * (v - v_min) / (v_max - v_min) + offset`;
when additionally `v_max > v_min` and the canvas side is at least
`2*offset`, every normalized coordinate lies in
`[offset, side - offset]`. -/
theorem normalize_points_range_amended (xs ys : List ℚ) (hgt w : ℕ) (xm xM ym yM : ℚ)
    (hxmin : foldMin xs = Fl.fin xm) (hxmax : foldMax xs = Fl.fin xM) (hx : xm < xM)
    (hymin : foldMin ys = Fl.fin ym) (hymax : foldMax ys = Fl.fin yM) (hy : ym < yM)
    (hw : 2 * 5 ≤ (w : ℚ)) (hh : 2 * 5 ≤ (hgt : ℚ)) :
    (normalize_points xs ys hgt w).1 =
      xs.map (fun v => Fl.fin (((w : ℚ) - 2 * 5) * (v - xm) / (xM - xm) + 5)) ∧
    (∀ fx ∈ (normalize_points xs ys hgt w).1,
      ∃ q, fx = Fl.fin q ∧ 5 ≤ q ∧ q ≤ (w : ℚ) - 5) ∧
    (normalize_points xs ys hgt w).2 =
      ys.map (fun v => Fl.fin (((hgt : ℚ) - 2 * 5) * (v - ym) / (yM - ym) + 5)) ∧
    (∀ fy ∈ (normalize_points xs ys hgt w).2,
      ∃ q, fy = Fl.fin q ∧ 5 ≤ q ∧ q ≤ (hgt : ℚ) - 5) := by
  obtain ⟨hx1, hx2⟩ := normAxis_range xs w xm xM hxmin hxmax hx hw
  obtain ⟨hy1, hy2⟩ := normAxis_range ys hgt ym yM hymin hymax hy hh
  refine ⟨?_, ?_, ?_, ?_⟩
  · rw [normalize_points_eq]
    exact hx1
  · intro fx hfx
    rw [normalize_points_eq] at hfx
    simp only at hfx
    rw [hx1] at hfx
    obtain ⟨v, hv, rfl⟩ := List.mem_map.mp hfx
    exact ⟨_, rfl, (hx2 v hv).1, (hx2 v hv).2⟩
  · rw [normalize_points_eq]
    exact hy1
  · intro fy hfy
    rw [normalize_points_eq] at hfy
    simp only at hfy
    rw [hy1] at hfy
    obtain ⟨v, hv, rfl⟩ := List.mem_map.mp hfy
    exact ⟨_, rfl, (hy2 v hv).1, (hy2 v hv).2⟩

theorem normalize_points_range_amended_witness :
    foldMin [(0 : ℚ), 1] = Fl.fin 0 ∧ foldMax [(0 : ℚ), 1] = Fl.fin 1 ∧ (0 : ℚ) < 1 ∧
    ∀ fx ∈ (normalize_points [0, 1] [0, 1] 20 20).1,
      ∃ q, fx = Fl.fin q ∧ 5 ≤ q ∧ q ≤ ((20 : ℕ) : ℚ) - 5 :=
  ⟨by decide, by decide, by norm_num,
   (normalize_points_range_amended [0, 1] [0, 1] 20 20 0 1 0 1
      (by decide) (by decide) (by norm_num) (by decide) (by decide) (by norm_num)
      (by norm_num) (by norm_num)).2.1⟩

/-- C6: when every generated x (or y) collapses to one value, the
zero-width range makes `normalize_points` divide zero by zero, and the
resulting `NaN` is propagated for that whole axis into the truncation
step: there is no guard, and `render` raises no error (it always
returns an image when the weighted index is constructible). -/
theorem normalize_degenerate_nan :
    (∀ (xs ys : List ℚ) (hgt w : ℕ) (c : ℚ), xs ≠ [] → (∀ x ∈ xs, x = c) →
      ∀ fx ∈ (normalize_points xs ys hgt w).1, fx = Fl.nan) ∧
    (∀ (xs ys : List ℚ) (hgt w : ℕ) (c : ℚ), ys ≠ [] → (∀ y ∈ ys, y = c) →
      ∀ fy ∈ (normalize_points xs ys hgt w).2, fy = Fl.nan) ∧
    (∀ (rng : Rng) (ifs : SigmaFactorIFS) (cfg : Config), wiValid ifs.weights →
      ∃ img, render rng ifs cfg = some img) := by
  refine ⟨?_, ?_, ?_⟩
  · intro xs ys hgt w c hne hc fx hfx
    obtain ⟨x0, t, rfl⟩ := List.exists_cons_of_ne_nil hne
    have hx0 : x0 = c := hc x0 (List.mem_cons_self x0 t)
    have hmin : foldMin (x0 :: t) = Fl.fin c := by
      rw [foldMin_cons, hx0,
        foldl_min_const t c fun x hx => hc x (List.mem_cons_of_mem _ hx)]
    have hmax : foldMax (x0 :: t) = Fl.fin c := by
      rw [foldMax_cons, hx0,
        foldl_max_const t c fun x hx => hc x (List.mem_cons_of_mem _ hx)]
    rw [normalize_points_eq] at hfx
    simp only at hfx
    obtain ⟨v, hv, rfl⟩ := List.mem_map.mp hfx
    rw [hmin, hmax, hc v hv]
    exact normApply_nan _ _ _
  · intro xs ys hgt w c hne hc fy hfy
    obtain ⟨y0, t, rfl⟩ := List.exists_cons_of_ne_nil hne
    have hy0 : y0 = c := hc y0 (List.mem_cons_self y0 t)
    have hmin : foldMin (y0 :: t) = Fl.fin c := by
      rw [foldMin_cons, hy0,
        foldl_min_const t c fun y hy => hc y (List.mem_cons_of_mem _ hy)]
    have hmax : foldMax (y0 :: t) = Fl.fin c := by
      rw [foldMax_cons, hy0,
        foldl_max_const t c fun y hy => hc y (List.mem_cons_of_mem _ hy)]
    rw [normalize_points_eq] at hfy
    simp only at hfy
    obtain ⟨v, hv, rfl⟩ := List.mem_map.mp hfy
    rw [hmin, hmax, hc v hv]
    exact normApply_nan _ _ _
  · intro rng ifs cfg hv
    obtain ⟨xs, ys, r, hgp, _, _⟩ := gpLoop_some ifs hv cfg.npoints rng ⟨0, 0⟩
    refine ⟨drawPoints
        ((normalize_points xs ys cfg.height cfg.width).1.zip
          (normalize_points xs ys cfg.height cfg.width).2)
        (Image.new cfg.width cfg.height) ((random_julia_color r).1)
        cfg.width cfg.height, ?_⟩
    simp only [render, generate_points]
    rw [hgp]
    rfl

theorem normalize_degenerate_nan_witness :
    ([(3 : ℚ), 3] ≠ []) ∧
    ∀ fx ∈ (normalize_points [(3 : ℚ), 3] [0, 1] 20 20).1, fx = Fl.nan :=
  ⟨by decide, normalize_degenerate_nan.1 [3, 3] [0, 1] 20 20 3 (by decide) (by decide)⟩

/-- C7 counterexample: the point `(-4, 2)` truncates to `(-4, 2)`,
whose x index is outside `[0, width)`; the claim says it is dropped,
but Rust's saturating `as u32` cast sends `-4` to `0`, so the
rasterizer paints pixel `(0, 2)` and the canvas is not left unchanged. -/
theorem render_truncation_counterexample :
    (drawPoints [(Fl.fin (-4), Fl.fin 2)] (Image.new 10 10) JULIA_RED 10 10).data 0 2 ≠
      (Image.new 10 10).data 0 2 := by
  decide

/-- C7 amended: the rasterizer truncates both coordinates toward zero
and converts them with Rust's saturating `as u32` cast (negative
values and `NaN` become 0, values at or above `2^32` and `+inf` become
`u32::MAX`); a pixel holds the draw color exactly when some point's
converted indices equal it and lie within `[0, width) x [0, height)`
(last-write-wins with a single color), and every point whose converted
indices fall outside those bounds is silently dropped. -/
theorem render_truncation_saturates : ∀ (ps : List (Fl × Fl)) (im : Image) (color : Rgb)
    (w hgt i j : ℕ),
    (drawPoints ps im color w hgt).data i j =
      if ∃ p ∈ ps, (Fl.trunc p.1).toU32 < w ∧ (Fl.trunc p.2).toU32 < hgt ∧
          (Fl.trunc p.1).toU32 = i ∧ (Fl.trunc p.2).toU32 = j
      then color else im.data i j := by
  intro ps
  induction ps with
  | nil =>
    intro im color w hgt i j
    simp [drawPoints]
  | cons p t ih =>
    intro im color w hgt i j
    have hstep : drawPoints (p :: t) im color w hgt =
        drawPoints t (if (Fl.trunc p.1).toU32 < w ∧ (Fl.trunc p.2).toU32 < hgt
          then im.put (Fl.trunc p.1).toU32 (Fl.trunc p.2).toU32 color else im)
          color w hgt := rfl
    rw [hstep, ih]
    by_cases hrest : ∃ q ∈ t, (Fl.trunc q.1).toU32 < w ∧ (Fl.trunc q.2).toU32 < hgt ∧
        (Fl.trunc q.1).toU32 = i ∧ (Fl.trunc q.2).toU32 = j
    · obtain ⟨q, hq, hqq⟩ := hrest
      rw [if_pos ⟨q, hq, hqq⟩, if_pos ⟨q, List.mem_cons_of_mem p hq, hqq⟩]
    · rw [if_neg hrest]
      by_cases hbnd : (Fl.trunc p.1).toU32 < w ∧ (Fl.trunc p.2).toU32 < hgt
      · rw [if_pos hbnd]
        show (if i = (Fl.trunc p.1).toU32 ∧ j = (Fl.trunc p.2).toU32
          then color else im.data i j) = _
        by_cases hij : i = (Fl.trunc p.1).toU32 ∧ j = (Fl.trunc p.2).toU32
        · rw [if_pos hij,
            if_pos ⟨p, List.mem_cons_self p t, hbnd.1, hbnd.2, hij.1.symm, hij.2.symm⟩]
        · have hno : ¬ ∃ q ∈ p :: t, (Fl.trunc q.1).toU32 < w ∧ (Fl.trunc q.2).toU32 < hgt ∧
              (Fl.trunc q.1).toU32 = i ∧ (Fl.trunc q.2).toU32 = j := by
            rintro ⟨q, hq, hqb1, hqb2, hqi, hqj⟩
            rcases List.mem_cons.mp hq with rfl | hq
            · exact hij ⟨hqi.symm, hqj.symm⟩
            · exact hrest ⟨q, hq, hqb1, hqb2, hqi, hqj⟩
          rw [if_neg hij, if_neg hno]
      · have hno : ¬ ∃ q ∈ p :: t, (Fl.trunc q.1).toU32 < w ∧ (Fl.trunc q.2).toU32 < hgt ∧
            (Fl.trunc q.1).toU32 = i ∧ (Fl.trunc q.2).toU32 = j := by
          rintro ⟨q, hq, hqb1, hqb2, hqi, hqj⟩
          rcases List.mem_cons.mp hq with rfl | hq
          · exact hbnd ⟨hqb1, hqb2⟩
          · exact hrest ⟨q, hq, hqb1, hqb2, hqi, hqj⟩
        rw [if_neg hbnd, if_neg hno]

/-- C8: `generate_points` iterates from the fixed point `(0, 0)`,
records only post-transform points (the head of the raw cloud is the
image of the current point under the first selected transform, not the
starting point), returns exactly `n` x and `n` y coordinates after
normalizing the cloud in place, and with `npoints = 0` the cloud is
empty and `render` still returns the untouched `width x height`
canvas without failing. -/
theorem generate_points_spec :
    (∀ (rng : Rng) (ifs : SigmaFactorIFS) (n hgt w : ℕ), wiValid ifs.weights →
      ∃ xs ys rng', generate_points rng ifs n hgt w = some ((xs, ys), rng') ∧
        xs.length = n ∧ ys.length = n) ∧
    (∀ (rng : Rng) (ifs : SigmaFactorIFS) (hgt w : ℕ),
      generate_points rng ifs 0 hgt w = some (([], []), rng)) ∧
    (∀ (rng : Rng) (ifs : SigmaFactorIFS) (p : Vec2) (n : ℕ), wiValid ifs.weights →
      ∃ q xs ys r', ifs.apply_random rng p = some (q, rng.next) ∧
        gpLoop ifs (n + 1) rng p = some (q.x :: xs, q.y :: ys, r') ∧
        gpLoop ifs n rng.next q = some (xs, ys, r')) ∧
    (∀ (rng : Rng) (ifs : SigmaFactorIFS) (cfg : Config), cfg.npoints = 0 →
      render rng ifs cfg = some (Image.new cfg.width cfg.height)) := by
  refine ⟨?_, ?_, ?_, ?_⟩
  · intro rng ifs n hgt w hv
    obtain ⟨xs, ys, r, hgp, h1, h2⟩ := gpLoop_some ifs hv n rng ⟨0, 0⟩
    refine ⟨(normalize_points xs ys hgt w).1, (normalize_points xs ys hgt w).2, r,
      ?_, ?_, ?_⟩
    · simp only [generate_points]
      rw [hgp]
      rfl
    · rw [normalize_points_eq]
      simp [h1]
    · rw [normalize_points_eq]
      simp [h2]
  · intro rng ifs hgt w
    rfl
  · intro rng ifs p n hv
    exact gpLoop_head ifs hv rng p n
  · intro rng ifs cfg h0
    simp only [render, generate_points, h0]
    rfl

theorem generate_points_spec_witness :
    wConfig0.npoints = 0 ∧
    render wRng wIfs wConfig0 = some (Image.new wConfig0.width wConfig0.height) :=
  ⟨rfl, generate_points_spec.2.2.2 wRng wIfs wConfig0 rfl⟩
